import Mathlib

/-!
Shallow embedding of the core of `bread_returns_aggregator.py` (the bread
factory workbook scanner): text/number normalization, sheet-name date
filtering, merged-cell resolution, table-anchor finding, store-column
detection, data-extent finding, and the aggregation loop of
`scan_workbook`.  GUI and file I/O are out of scope.

Cell values are modelled as either a text string or a rational number
(Python ints and floats are both modelled as `ℚ`); an absent cell is
`Option.none`.  A sheet is a finite association list of cells plus its
list of merged ranges and its reported extent (`ws.max_row`,
`ws.max_column`; the value `0` models openpyxl returning a falsy extent).
-/

set_option maxRecDepth 10000

-- Rational arithmetic must evaluate inside `decide` proofs about concrete
-- sheets; restore the default reducibility of the core `Rat` operations.
set_option allowUnsafeReducibility true
attribute [local semireducible] Rat.add Rat.mul Rat.neg Rat.sub Rat.div Rat.inv

namespace Bread

/-- A cell value: text or a number.  Python `int`/`float` cell contents are
both modelled as rationals; `str(x)` for numbers is modelled by a decimal
rendering (always float-style `i.f`). -/
inductive CellVal where
  | str : String → CellVal
  | num : ℚ → CellVal
deriving DecidableEq

/-- A merged range of a worksheet (`mr.min_row`, `mr.min_col`,
`mr.max_row`, `mr.max_col` in openpyxl). -/
structure MRange where
  min_row : Nat
  min_col : Nat
  max_row : Nat
  max_col : Nat
deriving DecidableEq

/-- A worksheet: a finite cell assignment, its merged ranges, and its
reported row/column extent (0 models a falsy `ws.max_row`/`ws.max_column`). -/
structure Sheet where
  cells : List ((Nat × Nat) × CellVal)
  merges : List MRange
  maxRow : Nat
  maxCol : Nat
deriving DecidableEq

/-- A workbook: ordered, named sheets (`wb.sheetnames` order). -/
structure Workbook where
  sheets : List (String × Sheet)
deriving DecidableEq

/-- Raw cell lookup `ws.cell(r, c).value` (no merge resolution).
Out-of-grid coordinates read as absent. -/
def cellValue (ws : Sheet) (r c : Nat) : Option CellVal :=
  (ws.cells.find? (fun e => decide (e.1 = (r, c)))).map (·.2)

/-- `dataclass StoreCols`. -/
structure StoreCols where
  name : String
  pka_col : Nat
  vat_col : Nat
deriving DecidableEq

-- ---------------- Configuration constants ----------------

/-- `MAX_ROWS = 320`. -/
def MAX_ROWS : Nat := 320

/-- `MAX_COLS = 25`. -/
def MAX_COLS : Nat := 25

/-- `ANCHOR_TEXT = "вид хлеба"`. -/
def ANCHOR_TEXT : String := "вид хлеба"

/-- `SUB_PKA = "п-ка"`. -/
def SUB_PKA : String := "п-ка"

/-- `SUB_VAT = "в-ат"`. -/
def SUB_VAT : String := "в-ат"

-- ---------------- Characters and rendering ----------------

/-- Python `\s` whitespace characters (the ASCII ones). -/
def wsChar (c : Char) : Bool :=
  c = ' ' || c = '\t' || c = '\n' || c = '\r' || c.toNat = 11 || c.toNat = 12

/-- The three dash variants replaced by `norm_text`
(U+2011 non-breaking hyphen, U+2013 en dash, U+2014 em dash). -/
def dashChar (c : Char) : Bool :=
  c.toNat = 0x2011 || c.toNat = 0x2013 || c.toNat = 0x2014

/-- Python `str.lower` restricted to ASCII letters and the Cyrillic block
actually occurring in the scanner's vocabulary. -/
def lowerChar (c : Char) : Char :=
  let n := c.toNat
  if 65 ≤ n ∧ n ≤ 90 then Char.ofNat (n + 32)
  else if 0x410 ≤ n ∧ n ≤ 0x42F then Char.ofNat (n + 32)
  else if n = 0x401 then Char.ofNat 0x451
  else c

/-- Collapse whitespace runs to a single space
(`re.sub(r"\s+", " ", s)`); the Bool tracks a pending run. -/
def collapseWsAux : Bool → List Char → List Char
  | _, [] => []
  | prev, c :: cs =>
    if wsChar c then
      if prev then collapseWsAux true cs else ' ' :: collapseWsAux true cs
    else c :: collapseWsAux false cs

/-- Python `str.strip()` on a character list. -/
def stripChars (l : List Char) : List Char :=
  ((l.dropWhile wsChar).reverse.dropWhile wsChar).reverse

/-- Python `str.strip()`. -/
def pyStrip (s : String) : String :=
  String.mk (stripChars s.data)

/-- Decimal digit character. -/
def digitChar (n : Nat) : Char := Char.ofNat (48 + n)

/-- Decimal digits of a natural number, most significant first
(`fuel`-structured; `fuel = n + 1` always suffices). -/
def natDigitsAux : Nat → Nat → List Char → List Char
  | 0, _, acc => acc
  | fuel + 1, n, acc =>
    if n < 10 then digitChar n :: acc
    else natDigitsAux fuel (n / 10) (digitChar (n % 10) :: acc)

/-- Decimal digits of a natural number, most significant first. -/
def natDigits (n : Nat) : List Char :=
  natDigitsAux (n + 1) n []

/-- Decimal digits of the fractional part of `q` (with `0 ≤ q < 1`),
up to `fuel` digits. -/
def fracDigits : ℚ → Nat → List Char
  | _, 0 => []
  | q, fuel + 1 =>
    if q = 0 then []
    else
      let q10 := q * 10
      let d := (Rat.floor q10).toNat
      digitChar d :: fracDigits (q10 - Rat.floor q10) fuel

/-- Model of Python `str()` on a numeric cell value (float-style rendering
`int.frac`, 17 fractional digits of precision). -/
def numStr (q : ℚ) : String :=
  let sign := if q < 0 then "-" else ""
  let a := if q < 0 then -q else q
  let ip := (Rat.floor a).toNat
  let fd := fracDigits (a - Rat.floor a) 17
  sign ++ String.mk (natDigits ip) ++ "." ++ (if fd = [] then "0" else String.mk fd)

/-- Python `str()` on a cell value. -/
def cellValStr : CellVal → String
  | .str s => s
  | .num q => numStr q

/-- Python truthiness of a cell value (`""` and `0` are falsy). -/
def truthyVal : CellVal → Bool
  | .str s => s ≠ ""
  | .num q => q ≠ 0

/-- `norm_text(v)`: `""` for `None`; otherwise stringify, NFKC-normalize
(modelled as the identity: the scanner's vocabulary is NFKC-invariant),
map dash variants to `-`, collapse whitespace runs, strip, lowercase. -/
def norm_text (v : Option CellVal) : String :=
  match v with
  | none => ""
  | some w =>
    let s := (cellValStr w).data
    let s := s.map (fun c => if dashChar c then '-' else c)
    let s := stripChars (collapseWsAux false s)
    String.mk (s.map lowerChar)

-- ---------------- to_number ----------------

/-- Match the regex `\d+(?:\.\d+)?` at the start of `l`
(greedy, as `re` does). -/
def matchUnsigned (l : List Char) : Option (List Char) :=
  let ds := l.takeWhile (·.isDigit)
  if ds = [] then none
  else
    match l.dropWhile (·.isDigit) with
    | [] => some ds
    | c :: r2 =>
      if c = '.' then
        let fs := r2.takeWhile (·.isDigit)
        if fs = [] then some ds else some (ds ++ '.' :: fs)
      else some ds

/-- Match the regex `-?\d+(?:\.\d+)?` at the start of `l`. -/
def matchNum (l : List Char) : Option (List Char) :=
  match l with
  | '-' :: t => (matchUnsigned t).map (fun m => '-' :: m)
  | _ => matchUnsigned l

/-- `re.search(r"-?\d+(?:\.\d+)?", l)`: leftmost match. -/
def searchNum : List Char → Option (List Char)
  | [] => none
  | c :: cs =>
    match matchNum (c :: cs) with
    | some m => some m
    | none => searchNum cs

/-- Numeric value of a digit list. -/
def digitsToNat (l : List Char) : Nat :=
  l.foldl (fun a c => 10 * a + (c.toNat - 48)) 0

/-- `float()` of a matched token (exact rational value of the decimal). -/
def parseTok (m : List Char) : ℚ :=
  let p := match m with
    | '-' :: t => (true, t)
    | _ => (false, m)
  let ds := p.2.takeWhile (·.isDigit)
  let ip : ℚ := (digitsToNat ds : ℚ)
  let v := match p.2.dropWhile (·.isDigit) with
    | '.' :: fs => ip + (digitsToNat fs : ℚ) / ((10 : ℚ) ^ fs.length)
    | _ => ip
  if p.1 then -v else v

/-- `str(v).strip().replace(",", ".")` as a character list. -/
def stringPrep (s : String) : List Char :=
  (pyStrip s).data.map (fun c => if c = ',' then '.' else c)

/-- `to_number(v)`: 0 for `None`; numbers pass through; otherwise strip,
replace `,` by `.`, and parse the first `-?\d+(?:\.\d+)?` substring, else 0. -/
def to_number (v : Option CellVal) : ℚ :=
  match v with
  | none => 0
  | some (.num q) => q
  | some (.str s) =>
    match searchNum (stringPrep s) with
    | some m => parseTok m
    | none => 0

-- ---------------- is_date_sheet ----------------

/-- A calendar date as parsed from a sheet name (Python `datetime` with
zero time-of-day). -/
structure PDate where
  year : Nat
  month : Nat
  day : Nat
deriving DecidableEq

/-- `datetime` comparison (lexicographic on year, month, day). -/
def dateLE (a b : PDate) : Bool :=
  decide (a.year < b.year ∨ (a.year = b.year ∧
    (a.month < b.month ∨ (a.month = b.month ∧ a.day ≤ b.day))))

/-- Gregorian leap-year rule. -/
def isLeap (y : Nat) : Bool :=
  y % 4 = 0 && (y % 100 ≠ 0 || y % 400 = 0)

/-- Days in a month (`m` in 1..12). -/
def daysInMonth (m y : Nat) : Nat :=
  if m = 2 then (if isLeap y then 29 else 28)
  else if m = 4 ∨ m = 6 ∨ m = 9 ∨ m = 11 then 30
  else 31

/-- `re.fullmatch(r"\d{2}\.\d{2}\.\d{4}", name)`. -/
def dateShape (name : String) : Bool :=
  match name.data with
  | [d1, d2, p1, m1, m2, p2, y1, y2, y3, y4] =>
    d1.isDigit && d2.isDigit && p1 = '.' && m1.isDigit && m2.isDigit &&
    p2 = '.' && y1.isDigit && y2.isDigit && y3.isDigit && y4.isDigit
  | _ => false

/-- Modelled from CPython `datetime.strptime(name, "%d.%m.%Y")` for names
of the `DD.MM.YYYY` shape (the only shape `is_date_sheet` feeds it): the
`%d`/`%m` field regexes bound day to 1..31 and month to 1..12, and the
`datetime` constructor additionally requires `1 ≤ year` and
`day ≤ daysInMonth`; any failure raises `ValueError`, modelled as `none`. -/
def strptimeDMY (name : String) : Option PDate :=
  match name.data with
  | [d1, d2, _, m1, m2, _, y1, y2, y3, y4] =>
    if d1.isDigit ∧ d2.isDigit ∧ m1.isDigit ∧ m2.isDigit ∧
       y1.isDigit ∧ y2.isDigit ∧ y3.isDigit ∧ y4.isDigit then
      let d := digitsToNat [d1, d2]
      let m := digitsToNat [m1, m2]
      let y := digitsToNat [y1, y2, y3, y4]
      if 1 ≤ d ∧ d ≤ 31 ∧ 1 ≤ m ∧ m ≤ 12 ∧ 1 ≤ y ∧ d ≤ daysInMonth m y then
        some ⟨y, m, d⟩
      else none
    else none
  | _ => none

/-- `is_date_sheet(name)`: the `DD.MM.YYYY` fullmatch gate, then
`strptime` (which may still reject a calendar-invalid date). -/
def is_date_sheet (name : String) : Option PDate :=
  if dateShape name then strptimeDMY name else none

-- ---------------- Merge resolution ----------------

/-- Loop of `cell_top_left_of_merge` over `ws.merged_cells.ranges`:
first containing range wins. -/
def mergeResolve : List MRange → Nat → Nat → Nat × Nat
  | [], r, c => (r, c)
  | mr :: rest, r, c =>
    if mr.min_row ≤ r ∧ r ≤ mr.max_row ∧ mr.min_col ≤ c ∧ c ≤ mr.max_col then
      (mr.min_row, mr.min_col)
    else mergeResolve rest r c

/-- `cell_top_left_of_merge(ws, row, col)`. -/
def cell_top_left_of_merge (ws : Sheet) (row col : Nat) : Nat × Nat :=
  mergeResolve ws.merges row col

/-- `read_cell(ws, row, col)`: resolve merges, then read. -/
def read_cell (ws : Sheet) (row col : Nat) : Option CellVal :=
  let rc := cell_top_left_of_merge ws row col
  cellValue ws rc.1 rc.2

-- ---------------- Table detection ----------------

/-- `find_table_anchors(ws, last_row, last_col)`: row-major scan of
rows 1..last_row, columns 1..last_col for cells reading as the anchor. -/
def find_table_anchors (ws : Sheet) (last_row last_col : Nat) : List (Nat × Nat) :=
  (List.range' 1 last_row).flatMap (fun r =>
    (List.range' 1 last_col).filterMap (fun c =>
      if norm_text (read_cell ws r c) = ANCHOR_TEXT then some (r, c) else none))

/-- `str(raw).strip() if raw else ""` (used for store names and the
driver display name). -/
def prettyStr : Option CellVal → String
  | none => ""
  | some w => if truthyVal w then pyStrip (cellValStr w) else ""

/-- Placeholder store name rule: `pretty or "(без названия)"` applied to
`str(name_raw).strip() if name_raw else ""`. -/
def storeName (nameRaw : Option CellVal) : String :=
  let pretty := prettyStr nameRaw
  if pretty = "" then "(без названия)" else pretty

/-- Loop of `detect_store_columns`, structured on a fuel bound on the
remaining columns (any `fuel ≥ last_col - c` gives the loop's behaviour). -/
def detectAux (ws : Sheet) (hdr_row sub_row : Nat) :
    Nat → Nat → Nat → List StoreCols
  | 0, _, _ => []
  | fuel + 1, c, last_col =>
    if c < last_col then
      if norm_text (read_cell ws sub_row c) = SUB_PKA ∧
         norm_text (read_cell ws sub_row (c + 1)) = SUB_VAT then
        ⟨storeName (read_cell ws hdr_row c), c, c + 1⟩ ::
          detectAux ws hdr_row sub_row fuel (c + 3) last_col
      else detectAux ws hdr_row sub_row fuel (c + 1) last_col
    else []

/-- `detect_store_columns(ws, hdr_row, sub_row, start_col, last_col)`:
greedy scan with stride 3 on match, 1 otherwise, while `c <= last_col - 1`. -/
def detect_store_columns (ws : Sheet) (hdr_row sub_row c last_col : Nat) : List StoreCols :=
  detectAux ws hdr_row sub_row (last_col - c) c last_col

/-- Loop of `data_row_end` (`r`, `blank` as in the source; after the
`while` the function returns `r - blank - 1`, an `Int` since arguments
are unconstrained).  Structured on a fuel bound on the remaining rows
(any `fuel ≥ last_row + 1 - r` gives the loop's behaviour). -/
def dataRowEndAux (ws : Sheet) (breadCol last_row : Nat) :
    Nat → Nat → Nat → Int
  | 0, r, blank => (r : Int) - blank - 1
  | fuel + 1, r, blank =>
    if r ≤ last_row then
      if norm_text (read_cell ws r breadCol) = "" then
        if blank + 1 ≥ 2 then (r : Int) - (blank + 1) - 1
        else dataRowEndAux ws breadCol last_row fuel (r + 1) (blank + 1)
      else dataRowEndAux ws breadCol last_row fuel (r + 1) 0
    else (r : Int) - blank - 1

/-- `data_row_end(ws, bread_col, start_row, last_row)`. -/
def data_row_end (ws : Sheet) (bread_col start_row last_row : Nat) : Int :=
  dataRowEndAux ws bread_col last_row (last_row + 1 - start_row) start_row 0

-- ---------------- Aggregation ----------------

/-- One totals map (`defaultdict(lambda: {"brought": 0.0, "returned": 0.0})`):
an insertion-ordered association list name ↦ (brought, returned). -/
abbrev TotalsMap := List (String × ℚ × ℚ)

/-- `m[k]["brought"] += b; m[k]["returned"] += r` with defaultdict
semantics (a fresh key is appended at the end, as in Python dicts). -/
def addPair (m : TotalsMap) (k : String) (b r : ℚ) : TotalsMap :=
  match m with
  | [] => [(k, b, r)]
  | (k', x, y) :: t =>
    if k' = k then (k', x + b, y + r) :: t else (k', x, y) :: addPair t k b r

/-- The rows `range(data_start, data_end + 1)` of a table. -/
def tableRows (data_start : Nat) (data_end : Int) : List Nat :=
  List.range' data_start (data_end + 1 - (data_start : Int)).toNat

/-- Body of `scan_workbook`'s `for (anchor_row, anchor_col) in anchors`
loop: detect stores, find the data extent, and accumulate into the two
totals maps. -/
def processAnchor (ws : Sheet) (last_row last_col : Nat) (a : Nat × Nat)
    (maps : TotalsMap × TotalsMap) : TotalsMap × TotalsMap :=
  let anchor_row := a.1
  let anchor_col := a.2
  let driver_raw := read_cell ws (anchor_row - 1) anchor_col
  let driver_display := prettyStr driver_raw
  let has_driver := norm_text driver_raw ≠ ""
  let hdr_row := anchor_row - 1
  let sub_row := anchor_row
  let data_start := anchor_row + 1
  let bread_col := anchor_col
  let first_store_col := anchor_col + 2
  let stores := detect_store_columns ws hdr_row sub_row first_store_col last_col
  if stores = [] then maps
  else
    let data_end := data_row_end ws bread_col data_start last_row
    if data_end < (data_start : Int) then maps
    else
      (tableRows data_start data_end).foldl (fun ms r =>
        stores.foldl (fun ms' st =>
          let b := to_number (read_cell ws r st.pka_col)
          let rv := to_number (read_cell ws r st.vat_col)
          (addPair ms'.1 st.name b rv,
           if has_driver then addPair ms'.2 driver_display b rv else ms'.2)) ms) maps

/-- `min(ws.max_row or max_rows, max_rows)`. -/
def sheetLastRow (ws : Sheet) (max_rows : Nat) : Nat :=
  min (if ws.maxRow = 0 then max_rows else ws.maxRow) max_rows

/-- `min(ws.max_column or max_cols, max_cols)`. -/
def sheetLastCol (ws : Sheet) (max_cols : Nat) : Nat :=
  min (if ws.maxCol = 0 then max_cols else ws.maxCol) max_cols

/-- Per-sheet part of `scan_workbook`: find anchors in the bounded window
and process each in order. -/
def scanSheet (ws : Sheet) (max_rows max_cols : Nat)
    (maps : TotalsMap × TotalsMap) : TotalsMap × TotalsMap :=
  let last_row := sheetLastRow ws max_rows
  let last_col := sheetLastCol ws max_cols
  (find_table_anchors ws last_row last_col).foldl
    (fun ms a => processAnchor ws last_row last_col a ms) maps

/-- `wb.sheetnames`. -/
def sheetnames (wb : Workbook) : List String :=
  wb.sheets.map Prod.fst

/-- `wb[name]` (names are unique in a workbook). -/
def sheetByName (wb : Workbook) (n : String) : Sheet :=
  (((wb.sheets.find? (fun e => decide (e.1 = n))).map (·.2)).getD ⟨[], [], 0, 0⟩)

/-- The sheet filter of `scan_workbook`:
`[n for n in wb.sheetnames if (dt := is_date_sheet(n)) and date_from <= dt <= date_to]`. -/
def scanSheetList (wb : Workbook) (date_from date_to : PDate) : List String :=
  (sheetnames wb).filter (fun n =>
    match is_date_sheet n with
    | some dt => dateLE date_from dt && dateLE dt date_to
    | none => false)

/-- `scan_workbook(path, date_from, date_to, max_rows, max_cols)` (the
totals maps; callbacks and metadata are I/O and omitted). -/
def scan_workbook (wb : Workbook) (date_from date_to : PDate)
    (max_rows max_cols : Nat) : TotalsMap × TotalsMap :=
  (scanSheetList wb date_from date_to).foldl
    (fun maps n => scanSheet (sheetByName wb n) max_rows max_cols maps) ([], [])

-- ---------------- Read instrumentation ----------------

/-- The coordinates touched by one `read_cell(ws, row, col)` call: the
requested coordinate and the merge-resolved one actually fetched. -/
def readCellReads (ws : Sheet) (row col : Nat) : List (Nat × Nat) :=
  [(row, col), cell_top_left_of_merge ws row col]

/-- Coordinates read by `find_table_anchors`. -/
def findAnchorsReads (ws : Sheet) (last_row last_col : Nat) : List (Nat × Nat) :=
  (List.range' 1 last_row).flatMap (fun r =>
    (List.range' 1 last_col).flatMap (fun c => readCellReads ws r c))

/-- Coordinates read by `detect_store_columns` (subheader pair always;
header only on a match); fuel-structured like `detectAux`. -/
def detectReadsAux (ws : Sheet) (hdr_row sub_row : Nat) :
    Nat → Nat → Nat → List (Nat × Nat)
  | 0, _, _ => []
  | fuel + 1, c, last_col =>
    if c < last_col then
      readCellReads ws sub_row c ++ readCellReads ws sub_row (c + 1) ++
      (if norm_text (read_cell ws sub_row c) = SUB_PKA ∧
          norm_text (read_cell ws sub_row (c + 1)) = SUB_VAT then
         readCellReads ws hdr_row c ++ detectReadsAux ws hdr_row sub_row fuel (c + 3) last_col
       else detectReadsAux ws hdr_row sub_row fuel (c + 1) last_col)
    else []

/-- Coordinates read by `detect_store_columns`. -/
def detectReads (ws : Sheet) (hdr_row sub_row c last_col : Nat) : List (Nat × Nat) :=
  detectReadsAux ws hdr_row sub_row (last_col - c) c last_col

/-- Coordinates read by the `data_row_end` loop; fuel-structured like
`dataRowEndAux`. -/
def dataRowEndReadsAux (ws : Sheet) (breadCol last_row : Nat) :
    Nat → Nat → Nat → List (Nat × Nat)
  | 0, _, _ => []
  | fuel + 1, r, blank =>
    if r ≤ last_row then
      readCellReads ws r breadCol ++
      (if norm_text (read_cell ws r breadCol) = "" then
         if blank + 1 ≥ 2 then []
         else dataRowEndReadsAux ws breadCol last_row fuel (r + 1) (blank + 1)
       else dataRowEndReadsAux ws breadCol last_row fuel (r + 1) 0)
    else []

/-- Coordinates read by `data_row_end`. -/
def dataRowEndReads (ws : Sheet) (breadCol last_row r blank : Nat) : List (Nat × Nat) :=
  dataRowEndReadsAux ws breadCol last_row (last_row + 1 - r) r blank

/-- Coordinates read while processing one anchor (driver lookup, column
detection, extent finding if stores were found, then the data loop). -/
def processAnchorReads (ws : Sheet) (last_row last_col : Nat) (a : Nat × Nat) :
    List (Nat × Nat) :=
  let stores := detect_store_columns ws (a.1 - 1) a.1 (a.2 + 2) last_col
  readCellReads ws (a.1 - 1) a.2 ++
  detectReads ws (a.1 - 1) a.1 (a.2 + 2) last_col ++
  (if stores = [] then []
   else
     dataRowEndReads ws a.2 last_row (a.1 + 1) 0 ++
     (tableRows (a.1 + 1) (data_row_end ws a.2 (a.1 + 1) last_row)).flatMap (fun r =>
       stores.flatMap (fun st =>
         readCellReads ws r st.pka_col ++ readCellReads ws r st.vat_col)))

/-- All coordinates read while scanning one sheet. -/
def scanSheetReads (ws : Sheet) (max_rows max_cols : Nat) : List (Nat × Nat) :=
  let last_row := sheetLastRow ws max_rows
  let last_col := sheetLastCol ws max_cols
  findAnchorsReads ws last_row last_col ++
  (find_table_anchors ws last_row last_col).flatMap
    (processAnchorReads ws last_row last_col)

-- ---------------- Well-formedness of sheets ----------------

/-- A merged range is a non-empty rectangle inside the 1-based grid
(an invariant of the xlsx format). -/
def wfRange (mr : MRange) : Prop :=
  1 ≤ mr.min_row ∧ mr.min_row ≤ mr.max_row ∧ 1 ≤ mr.min_col ∧ mr.min_col ≤ mr.max_col

instance : DecidablePred wfRange := fun mr => by unfold wfRange; infer_instance

/-- `(r, c)` lies inside the merged range. -/
def inRange (mr : MRange) (r c : Nat) : Prop :=
  mr.min_row ≤ r ∧ r ≤ mr.max_row ∧ mr.min_col ≤ c ∧ c ≤ mr.max_col

instance (mr : MRange) (r c : Nat) : Decidable (inRange mr r c) := by
  unfold inRange; infer_instance

/-- Two merged ranges occupy disjoint rectangles (an invariant of the
xlsx format: Excel refuses overlapping merges). -/
def rangesDisjoint (a b : MRange) : Prop :=
  a.max_row < b.min_row ∨ b.max_row < a.min_row ∨
  a.max_col < b.min_col ∨ b.max_col < a.min_col

instance (a b : MRange) : Decidable (rangesDisjoint a b) := by
  unfold rangesDisjoint; infer_instance

/-- Well-formed sheet: every merged range valid, and merged ranges
pairwise disjoint. -/
def wfSheet (ws : Sheet) : Prop :=
  (∀ mr ∈ ws.merges, wfRange mr) ∧ ws.merges.Pairwise rangesDisjoint

instance (ws : Sheet) : Decidable (wfSheet ws) := by
  unfold wfSheet; infer_instance

-- ---------------- Example sheets ----------------

/-- A sheet whose anchor column has data in row 3 and blanks from row 4 on. -/
def wsBug : Sheet := ⟨[((3, 1), .str "x")], [], 6, 1⟩

/-- The end-to-end example sheet: anchor at (2,1), driver above it, one
store block at columns 3–5, data in rows 3–5. -/
def wsEx : Sheet :=
  ⟨[((2, 1), .str "Вид Хлеба"), ((1, 1), .str "Ivanov"), ((1, 3), .str "Store A"),
    ((2, 3), .str "П-ка"), ((2, 4), .str "В-ат"), ((2, 5), .str "Ост"),
    ((3, 1), .str "bread1"), ((4, 1), .str "bread2"), ((5, 1), .str "bread3"),
    ((3, 3), .num 5), ((3, 4), .num 2), ((4, 3), .num 3), ((4, 4), .num 1),
    ((5, 3), .num 0), ((5, 4), .num 0)], [], 7, 5⟩

/-- A sheet with the anchor phrase in row 1 (its header/driver reads then
target row 0). -/
def wsRow1 : Sheet := ⟨[((1, 1), .str "Вид Хлеба")], [], 1, 1⟩

/-- A sheet whose single data cell is negative. -/
def wsNeg : Sheet :=
  ⟨[((2, 1), .str "Вид Хлеба"), ((1, 3), .str "Store A"),
    ((2, 3), .str "П-ка"), ((2, 4), .str "В-ат"),
    ((3, 1), .str "x"), ((4, 1), .str "x"), ((3, 3), .num (-5))], [], 4, 4⟩

/-- A one-sheet workbook around `wsNeg`. -/
def wbNeg : Workbook := ⟨[("01.01.2024", wsNeg)]⟩

/-- A one-sheet workbook around `wsEx`. -/
def wbEx : Workbook := ⟨[("05.01.2024", wsEx)]⟩

/-- A sheet whose anchor title cell is merged across (1,1)–(1,2). -/
def wsMerged : Sheet := ⟨[((1, 1), .str "Вид Хлеба")], [⟨1, 1, 1, 2⟩], 1, 2⟩

-- ---------------- Merge-resolver lemmas ----------------

theorem rangesDisjoint_no_common {a b : MRange} (h : rangesDisjoint a b) (r c : Nat) :
    ¬(inRange a r c ∧ inRange b r c) := by
  unfold rangesDisjoint at h
  unfold inRange
  omega

theorem mergeResolve_cases (l : List MRange) (r c : Nat) :
    mergeResolve l r c = (r, c) ∨
      ∃ mr ∈ l, inRange mr r c ∧ mergeResolve l r c = (mr.min_row, mr.min_col) := by
  induction l with
  | nil => left; rfl
  | cons mr rest ih =>
    by_cases h : mr.min_row ≤ r ∧ r ≤ mr.max_row ∧ mr.min_col ≤ c ∧ c ≤ mr.max_col
    · right
      refine ⟨mr, List.mem_cons_self _ _, h, ?_⟩
      simp [mergeResolve, h]
    · have hr : mergeResolve (mr :: rest) r c = mergeResolve rest r c := by
        simp [mergeResolve, h]
      rcases ih with h1 | ⟨m2, hm2, hin2, he2⟩
      · left; rw [hr, h1]
      · right; exact ⟨m2, List.mem_cons_of_mem _ hm2, hin2, hr ▸ he2⟩

theorem mergeResolve_first (l : List MRange) (hd : l.Pairwise rangesDisjoint)
    {mr : MRange} (hmem : mr ∈ l) {r c : Nat} (hin : inRange mr r c) :
    mergeResolve l r c = (mr.min_row, mr.min_col) := by
  induction l with
  | nil => cases hmem
  | cons m rest ih =>
    rcases List.mem_cons.mp hmem with rfl | hmem'
    · simp [mergeResolve, hin.1, hin.2.1, hin.2.2.1, hin.2.2.2]
    · have hdisj : rangesDisjoint m mr := (List.pairwise_cons.mp hd).1 mr hmem'
      have hnot : ¬(m.min_row ≤ r ∧ r ≤ m.max_row ∧ m.min_col ≤ c ∧ c ≤ m.max_col) := by
        intro hm
        exact rangesDisjoint_no_common hdisj r c ⟨hm, hin⟩
      simp only [mergeResolve, if_neg hnot]
      exact ih (List.pairwise_cons.mp hd).2 hmem'

/-- C9 helper: idempotence of the raw resolver over a valid, pairwise
disjoint range list. -/
theorem mergeResolve_idem (l : List MRange) (hwf : ∀ mr ∈ l, wfRange mr)
    (hd : l.Pairwise rangesDisjoint) (r c : Nat) :
    mergeResolve l (mergeResolve l r c).1 (mergeResolve l r c).2 = mergeResolve l r c := by
  rcases mergeResolve_cases l r c with h | ⟨mr, hmem, _hin, he⟩
  · rw [h]; exact h
  · have hwmr := hwf mr hmem
    have hin0 : inRange mr mr.min_row mr.min_col := by
      unfold wfRange at hwmr; unfold inRange; omega
    rw [he]
    exact mergeResolve_first l hd hmem hin0

/-- C9: the merged-region resolver is idempotent on every well-formed
sheet: resolving the resolved coordinate returns it unchanged, also when
the queried point is itself a merged region's top-left. -/
theorem resolve_idempotent (ws : Sheet) (h : wfSheet ws) (r c : Nat) :
    cell_top_left_of_merge ws (cell_top_left_of_merge ws r c).1
      (cell_top_left_of_merge ws r c).2 = cell_top_left_of_merge ws r c :=
  mergeResolve_idem ws.merges h.1 h.2 r c

/-- C9 witness: resolving (2,2) of a sheet with merged range (1,1)–(2,2)
twice equals resolving it once. -/
theorem resolve_idempotent_witness :
    wfSheet wsMerged ∧
      cell_top_left_of_merge wsMerged (cell_top_left_of_merge wsMerged 2 2).1
        (cell_top_left_of_merge wsMerged 2 2).2 = cell_top_left_of_merge wsMerged 2 2 :=
  ⟨by decide, resolve_idempotent wsMerged (by decide) 2 2⟩

-- ---------------- Anchor-finder lemmas ----------------

theorem mem_find_table_anchors {ws : Sheet} {last_row last_col r c : Nat} :
    (r, c) ∈ find_table_anchors ws last_row last_col ↔
      1 ≤ r ∧ r ≤ last_row ∧ 1 ≤ c ∧ c ≤ last_col ∧
        norm_text (read_cell ws r c) = ANCHOR_TEXT := by
  unfold find_table_anchors
  simp only [List.mem_flatMap, List.mem_filterMap, List.mem_range'_1]
  constructor
  · rintro ⟨r', hr', c', hc', hif⟩
    by_cases h : norm_text (read_cell ws r' c') = ANCHOR_TEXT
    · rw [if_pos h] at hif
      cases hif
      exact ⟨by omega, by omega, by omega, by omega, h⟩
    · rw [if_neg h] at hif; cases hif
  · rintro ⟨h1, h2, h3, h4, h5⟩
    exact ⟨r, ⟨by omega, by omega⟩, c, ⟨by omega, by omega⟩, by rw [if_pos h5]⟩

/-- C10: every in-window cell covered by a merged region whose top-left
value normalizes to the anchor phrase is returned as its own anchor by
`find_table_anchors`. -/
theorem merged_anchor_each_cell (ws : Sheet) (last_row last_col : Nat) (mr : MRange)
    (r c : Nat) (hwf : wfSheet ws) (hmem : mr ∈ ws.merges) (hin : inRange mr r c)
    (hanch : norm_text (cellValue ws mr.min_row mr.min_col) = ANCHOR_TEXT)
    (h1 : 1 ≤ r) (h2 : r ≤ last_row) (h3 : 1 ≤ c) (h4 : c ≤ last_col) :
    (r, c) ∈ find_table_anchors ws last_row last_col := by
  have hres : cell_top_left_of_merge ws r c = (mr.min_row, mr.min_col) :=
    mergeResolve_first ws.merges hwf.2 hmem hin
  have hread : read_cell ws r c = cellValue ws mr.min_row mr.min_col := by
    unfold read_cell
    rw [hres]
  exact mem_find_table_anchors.mpr ⟨h1, h2, h3, h4, by rw [hread]; exact hanch⟩

/-- C10 witness: in `wsMerged` the anchor title is merged over (1,1)–(1,2),
and the covered cell (1,2) is itself reported as an anchor. -/
theorem merged_anchor_each_cell_witness :
    wfSheet wsMerged ∧ (⟨1, 1, 1, 2⟩ : MRange) ∈ wsMerged.merges ∧
      inRange ⟨1, 1, 1, 2⟩ 1 2 ∧
      norm_text (cellValue wsMerged 1 1) = ANCHOR_TEXT ∧
      (1, 2) ∈ find_table_anchors wsMerged 1 2 :=
  ⟨by decide, by decide, by decide, by decide,
    merged_anchor_each_cell wsMerged 1 2 ⟨1, 1, 1, 2⟩ 1 2 (by decide) (by decide)
      (by decide) (by decide) (by decide) (by decide) (by decide) (by decide)⟩

-- ---------------- C2: driver mirroring ----------------

/-- The per-table contribution stream of one anchor: for every data row
and every detected store pair, the store name and the two numbers read
from the brought and returned columns. -/
def tableCells (ws : Sheet) (last_row last_col : Nat) (a : Nat × Nat) :
    List (String × ℚ × ℚ) :=
  let stores := detect_store_columns ws (a.1 - 1) a.1 (a.2 + 2) last_col
  (tableRows (a.1 + 1) (data_row_end ws a.2 (a.1 + 1) last_row)).flatMap (fun r =>
    stores.map (fun st =>
      (st.name, to_number (read_cell ws r st.pka_col), to_number (read_cell ws r st.vat_col))))

theorem foldl_pair {α β γ : Type} (l : List α) (f : β → α → β) (g : γ → α → γ)
    (b : β) (c : γ) :
    l.foldl (fun p x => (f p.1 x, g p.2 x)) (b, c) = (l.foldl f b, l.foldl g c) := by
  induction l generalizing b c with
  | nil => rfl
  | cons x t ih => simp only [List.foldl_cons]; exact ih (f b x) (g c x)

theorem foldl_id {α γ : Type} (l : List α) (c : γ) :
    l.foldl (fun p _ => p) c = c := by
  induction l with
  | nil => rfl
  | cons x t ih => simp

theorem foldl_flatMap {α β γ : Type} (l : List α) (f : α → List β) (g : γ → β → γ)
    (init : γ) :
    (l.flatMap f).foldl g init = l.foldl (fun acc x => (f x).foldl g acc) init := by
  induction l generalizing init with
  | nil => rfl
  | cons x t ih => simp only [List.flatMap_cons, List.foldl_append, List.foldl_cons]; exact ih _

theorem flatMap_const_nil {α β : Type} (l : List α) :
    (l.flatMap (fun _ => ([] : List β))) = [] := by
  induction l with
  | nil => rfl
  | cons x t ih => simp

theorem tableRows_nil {s : Nat} {e : Int} (h : e < (s : Int)) : tableRows s e = [] := by
  unfold tableRows
  have : (e + 1 - (s : Int)).toNat = 0 := by omega
  rw [this]
  rfl

theorem nested_fold_split_pos {α β γ δ : Type} (rows : List α) (stores : List β)
    (f : α → β → γ) (g1 g2 : δ → γ → δ) (m1 m2 : δ) :
    rows.foldl (fun ms r => stores.foldl
        (fun ms' s => (g1 ms'.1 (f r s), g2 ms'.2 (f r s))) ms) (m1, m2) =
    ((rows.flatMap (fun r => stores.map (f r))).foldl g1 m1,
      (rows.flatMap (fun r => stores.map (f r))).foldl g2 m2) := by
  induction rows generalizing m1 m2 with
  | nil => rfl
  | cons r t ih =>
    simp only [List.foldl_cons, List.flatMap_cons, List.foldl_append, List.foldl_map]
    rw [foldl_pair stores (fun m s => g1 m (f r s)) (fun m s => g2 m (f r s)) m1 m2]
    exact ih _ _

theorem nested_fold_split_none {α β γ δ : Type} (rows : List α) (stores : List β)
    (f : α → β → γ) (g1 : δ → γ → δ) (m1 m2 : δ) :
    rows.foldl (fun ms r => stores.foldl
        (fun ms' s => (g1 ms'.1 (f r s), ms'.2)) ms) (m1, m2) =
    ((rows.flatMap (fun r => stores.map (f r))).foldl g1 m1, m2) := by
  induction rows generalizing m1 m2 with
  | nil => rfl
  | cons r t ih =>
    simp only [List.foldl_cons, List.flatMap_cons, List.foldl_append, List.foldl_map]
    rw [foldl_pair stores (fun m s => g1 m (f r s)) (fun (m : δ) (_ : β) => m) m1 m2,
      foldl_id]
    exact ih _ _

/-- The interleaved two-map update of `scan_workbook`'s inner loops equals
two independent folds over the flattened (row × store) stream, the second
one only when the driver condition holds. -/
theorem nested_fold_split {α β γ δ : Type} (rows : List α) (stores : List β)
    (f : α → β → γ) (g1 g2 : δ → γ → δ) (P : Prop) [Decidable P] (m1 m2 : δ) :
    rows.foldl (fun ms r => stores.foldl
        (fun ms' s => (g1 ms'.1 (f r s), if P then g2 ms'.2 (f r s) else ms'.2)) ms)
      (m1, m2) =
    ((rows.flatMap (fun r => stores.map (f r))).foldl g1 m1,
      if P then (rows.flatMap (fun r => stores.map (f r))).foldl g2 m2 else m2) := by
  by_cases hP : P
  · simp only [if_pos hP]
    exact nested_fold_split_pos rows stores f g1 g2 m1 m2
  · simp only [if_neg hP]
    exact nested_fold_split_none rows stores f g1 m1 m2

/-- C2: processing one anchor adds, for every data row and store pair, the
pair of numbers `(brought, returned)` to the store's entry, and — exactly
when the cell above the anchor normalizes non-empty — the very same
numbers to the driver's entry; the stores component never depends on the
driver cell, and a blank driver cell contributes nothing to the drivers
map. -/
theorem anchor_driver_mirror (ws : Sheet) (last_row last_col : Nat) (a : Nat × Nat)
    (st dr : TotalsMap) :
    processAnchor ws last_row last_col a (st, dr) =
      ((tableCells ws last_row last_col a).foldl
          (fun m e => addPair m e.1 e.2.1 e.2.2) st,
        if norm_text (read_cell ws (a.1 - 1) a.2) ≠ "" then
          (tableCells ws last_row last_col a).foldl
            (fun m e => addPair m (prettyStr (read_cell ws (a.1 - 1) a.2)) e.2.1 e.2.2) dr
        else dr) := by
  simp only [processAnchor, tableCells]
  by_cases hnil : detect_store_columns ws (a.1 - 1) a.1 (a.2 + 2) last_col = []
  · rw [hnil]
    simp [flatMap_const_nil, ite_self, foldl_id]
  · rw [if_neg hnil]
    by_cases hde : data_row_end ws a.2 (a.1 + 1) last_row < ((a.1 + 1 : Nat) : Int)
    · rw [if_pos hde, tableRows_nil hde]
      simp only [List.flatMap_nil, List.foldl_nil, ite_self]
    · rw [if_neg hde]
      exact nested_fold_split
        (tableRows (a.1 + 1) (data_row_end ws a.2 (a.1 + 1) last_row))
        (detect_store_columns ws (a.1 - 1) a.1 (a.2 + 2) last_col)
        (fun r st' => (st'.name, to_number (read_cell ws r st'.pka_col),
          to_number (read_cell ws r st'.vat_col)))
        (fun m e => addPair m e.1 e.2.1 e.2.2)
        (fun m e => addPair m (prettyStr (read_cell ws (a.1 - 1) a.2)) e.2.1 e.2.2)
        (norm_text (read_cell ws (a.1 - 1) a.2) ≠ "") st dr

-- ---------------- C3: column-block detection ----------------

theorem detectAux_congr (ws : Sheet) (hdr sub : Nat) :
    ∀ f1 f2 c lc, lc - c ≤ f1 → lc - c ≤ f2 →
      detectAux ws hdr sub f1 c lc = detectAux ws hdr sub f2 c lc := by
  intro f1
  induction f1 with
  | zero =>
    intro f2 c lc h1 h2
    cases f2 with
    | zero => rfl
    | succ g =>
      show _ = detectAux ws hdr sub (g + 1) c lc
      simp only [detectAux]
      rw [if_neg (by omega : ¬ c < lc)]
  | succ f ih =>
    intro f2 c lc h1 h2
    cases f2 with
    | zero =>
      show detectAux ws hdr sub (f + 1) c lc = _
      simp only [detectAux]
      rw [if_neg (by omega : ¬ c < lc)]
    | succ g =>
      simp only [detectAux]
      by_cases hc : c < lc
      · rw [if_pos hc, if_pos hc]
        by_cases hm : norm_text (read_cell ws sub c) = SUB_PKA ∧
            norm_text (read_cell ws sub (c + 1)) = SUB_VAT
        · rw [if_pos hm, if_pos hm]
          rw [ih g (c + 3) lc (by omega) (by omega)]
        · rw [if_neg hm, if_neg hm]
          exact ih g (c + 1) lc (by omega) (by omega)
      · rw [if_neg hc, if_neg hc]

theorem detectAux_sound (ws : Sheet) (hdr sub : Nat) :
    ∀ fuel c lc p, p ∈ detectAux ws hdr sub fuel c lc →
      norm_text (read_cell ws sub p.pka_col) = SUB_PKA ∧
      norm_text (read_cell ws sub (p.pka_col + 1)) = SUB_VAT ∧
      p.vat_col = p.pka_col + 1 ∧
      p.name = storeName (read_cell ws hdr p.pka_col) ∧
      c ≤ p.pka_col ∧ p.pka_col + 1 ≤ lc := by
  intro fuel
  induction fuel with
  | zero => intro c lc p hp; cases hp
  | succ f ih =>
    intro c lc p hp
    simp only [detectAux] at hp
    by_cases hc : c < lc
    · rw [if_pos hc] at hp
      by_cases hm : norm_text (read_cell ws sub c) = SUB_PKA ∧
          norm_text (read_cell ws sub (c + 1)) = SUB_VAT
      · rw [if_pos hm] at hp
        rcases List.mem_cons.mp hp with rfl | hp'
        · exact ⟨hm.1, hm.2, rfl, rfl, le_refl _, hc⟩
        · have h := ih (c + 3) lc p hp'
          exact ⟨h.1, h.2.1, h.2.2.1, h.2.2.2.1, by omega, h.2.2.2.2.2⟩
      · rw [if_neg hm] at hp
        have h := ih (c + 1) lc p hp
        exact ⟨h.1, h.2.1, h.2.2.1, h.2.2.2.1, by omega, h.2.2.2.2.2⟩
    · rw [if_neg hc] at hp; cases hp

/-- Shared soundness lemma for the column detector. -/
theorem detect_sound (ws : Sheet) (hdr sub c lc : Nat) (p : StoreCols)
    (hp : p ∈ detect_store_columns ws hdr sub c lc) :
    norm_text (read_cell ws sub p.pka_col) = SUB_PKA ∧
    norm_text (read_cell ws sub (p.pka_col + 1)) = SUB_VAT ∧
    p.vat_col = p.pka_col + 1 ∧
    p.name = storeName (read_cell ws hdr p.pka_col) ∧
    c ≤ p.pka_col ∧ p.pka_col + 1 ≤ lc :=
  detectAux_sound ws hdr sub (lc - c) c lc p hp

/-- C3: `detect_store_columns` records a pair exactly on a subheader
match at the current and next column (with merge-resolved, placeholder
store naming), advances 3 columns on a match and 1 otherwise, and stops
when fewer than 2 columns remain in the window. -/
theorem detect_store_columns_spec :
    (∀ ws hdr sub c lc p, p ∈ detect_store_columns ws hdr sub c lc →
      norm_text (read_cell ws sub p.pka_col) = SUB_PKA ∧
      norm_text (read_cell ws sub (p.pka_col + 1)) = SUB_VAT ∧
      p.vat_col = p.pka_col + 1 ∧
      p.name = storeName (read_cell ws hdr p.pka_col) ∧
      c ≤ p.pka_col ∧ p.pka_col + 1 ≤ lc) ∧
    (∀ ws hdr sub c lc, ¬ c < lc → detect_store_columns ws hdr sub c lc = []) ∧
    (∀ ws hdr sub c lc, c < lc →
      norm_text (read_cell ws sub c) = SUB_PKA →
      norm_text (read_cell ws sub (c + 1)) = SUB_VAT →
      detect_store_columns ws hdr sub c lc =
        ⟨storeName (read_cell ws hdr c), c, c + 1⟩ ::
          detect_store_columns ws hdr sub (c + 3) lc) ∧
    (∀ ws hdr sub c lc, c < lc →
      ¬(norm_text (read_cell ws sub c) = SUB_PKA ∧
        norm_text (read_cell ws sub (c + 1)) = SUB_VAT) →
      detect_store_columns ws hdr sub c lc =
        detect_store_columns ws hdr sub (c + 1) lc) := by
  refine ⟨fun ws hdr sub c lc p hp => detect_sound ws hdr sub c lc p hp, ?_, ?_, ?_⟩
  · intro ws hdr sub c lc hc
    unfold detect_store_columns
    have h0 : lc - c = 0 := by omega
    rw [h0]
    rfl
  · intro ws hdr sub c lc hc h1 h2
    unfold detect_store_columns
    obtain ⟨k, hk⟩ : ∃ k, lc - c = k + 1 := ⟨lc - c - 1, by omega⟩
    rw [hk]
    simp only [detectAux]
    rw [if_pos hc, if_pos ⟨h1, h2⟩]
    rw [detectAux_congr ws hdr sub k (lc - (c + 3)) (c + 3) lc (by omega) (by omega)]
  · intro ws hdr sub c lc hc hm
    unfold detect_store_columns
    obtain ⟨k, hk⟩ : ∃ k, lc - c = k + 1 := ⟨lc - c - 1, by omega⟩
    rw [hk]
    simp only [detectAux]
    rw [if_pos hc, if_neg hm]
    exact detectAux_congr ws hdr sub k (lc - (c + 1)) (c + 1) lc (by omega) (by omega)

/-- C3 witness: all four parts of the detector specification evaluated on
the concrete sheet `wsEx`. -/
theorem detect_store_columns_spec_witness :
    (norm_text (read_cell wsEx 2 3) = SUB_PKA ∧
      norm_text (read_cell wsEx 2 (3 + 1)) = SUB_VAT ∧
      (4 : Nat) = 3 + 1 ∧
      "Store A" = storeName (read_cell wsEx 1 3) ∧
      3 ≤ 3 ∧ 3 + 1 ≤ 5) ∧
    detect_store_columns wsEx 1 2 5 5 = [] ∧
    detect_store_columns wsEx 1 2 3 5 =
      ⟨storeName (read_cell wsEx 1 3), 3, 3 + 1⟩ :: detect_store_columns wsEx 1 2 (3 + 3) 5 ∧
    detect_store_columns wsEx 1 2 4 5 = detect_store_columns wsEx 1 2 (4 + 1) 5 :=
  ⟨detect_store_columns_spec.1 wsEx 1 2 3 5 ⟨"Store A", 3, 4⟩ (by decide),
    detect_store_columns_spec.2.1 wsEx 1 2 5 5 (by decide),
    detect_store_columns_spec.2.2.1 wsEx 1 2 3 5 (by decide) (by decide) (by decide),
    detect_store_columns_spec.2.2.2 wsEx 1 2 4 5 (by decide) (by decide)⟩

-- ---------------- C1: the data-extent finder ----------------

/-- C1: on `wsBug` the anchor column is non-blank in row 3 and the first
run of two consecutive blank rows is rows 4–5, so the last non-blank row
before the run is 3 — but `data_row_end` returns 2 (`r - blank - 1` is
evaluated with `r` still on the second blank row, subtracting one too
many), so the only data row is dropped and the caller skips the table. -/
theorem data_row_end_off_by_one :
    data_row_end wsBug 1 3 6 = 2 ∧
    norm_text (read_cell wsBug 3 1) ≠ "" ∧
    norm_text (read_cell wsBug 4 1) = "" ∧
    norm_text (read_cell wsBug 5 1) = "" ∧
    ((2 : Int) < 3) := by decide

-- ---------------- C7: sheet-name date parsing ----------------

/-- The three numeric fields of a 10-character `DD.MM.YYYY`-shaped name. -/
def dateFields (name : String) : Option (Nat × Nat × Nat) :=
  match name.data with
  | [d1, d2, _, m1, m2, _, y1, y2, y3, y4] =>
    some (digitsToNat [d1, d2], digitsToNat [m1, m2], digitsToNat [y1, y2, y3, y4])
  | _ => none

/-- A valid Gregorian calendar date as `datetime` accepts it. -/
def calendarValid (d m y : Nat) : Prop :=
  1 ≤ m ∧ m ≤ 12 ∧ 1 ≤ d ∧ d ≤ daysInMonth m y ∧ 1 ≤ y

theorem daysInMonth_le (m y : Nat) : daysInMonth m y ≤ 31 := by
  unfold daysInMonth
  split
  · split <;> omega
  · split <;> omega

/-- C7: `is_date_sheet` succeeds exactly on names of the exact
`DD.MM.YYYY` shape whose fields form a valid calendar date; the
shape-matching but calendar-invalid "31.02.2024" and "01.13.2024" and the
wrong-shape "2024.01.01" all yield none. -/
theorem is_date_sheet_spec :
    is_date_sheet "01.01.2024" = some ⟨2024, 1, 1⟩ ∧
    is_date_sheet "31.02.2024" = none ∧
    is_date_sheet "01.13.2024" = none ∧
    is_date_sheet "2024.01.01" = none ∧
    (∀ name, (is_date_sheet name).isSome ↔
      (dateShape name = true ∧
        ∃ f, dateFields name = some f ∧ calendarValid f.1 f.2.1 f.2.2)) := by
  refine ⟨by decide, by decide, by decide, by decide, ?_⟩
  intro name
  unfold is_date_sheet
  by_cases hs : dateShape name = true
  · rw [if_pos hs]
    rcases hl : name.data with _ | ⟨c1, _ | ⟨c2, _ | ⟨c3, _ | ⟨c4, _ | ⟨c5, _ | ⟨c6,
      _ | ⟨c7, _ | ⟨c8, _ | ⟨c9, _ | ⟨c10, t⟩⟩⟩⟩⟩⟩⟩⟩⟩⟩ <;>
      (try (clear hs; simp [strptimeDMY, dateShape, dateFields, hl]; done))
    cases t with
    | cons c11 t' => clear hs; simp [strptimeDMY, dateShape, dateFields, hl]
    | nil =>
      have hbits := hs
      simp only [dateShape, hl, Bool.and_eq_true, decide_eq_true_eq] at hbits
      obtain ⟨⟨⟨⟨⟨⟨⟨⟨⟨h1, h2⟩, h3⟩, h4⟩, h5⟩, h6⟩, h7⟩, h8⟩, h9⟩, h10⟩ := hbits
      simp only [strptimeDMY, dateFields, hl]
      rw [if_pos ⟨h1, h2, h4, h5, h7, h8, h9, h10⟩]
      have hd31 := daysInMonth_le (digitsToNat [c4, c5]) (digitsToNat [c7, c8, c9, c10])
      constructor
      · intro hiss
        by_cases hr : 1 ≤ digitsToNat [c1, c2] ∧ digitsToNat [c1, c2] ≤ 31 ∧
            1 ≤ digitsToNat [c4, c5] ∧ digitsToNat [c4, c5] ≤ 12 ∧
            1 ≤ digitsToNat [c7, c8, c9, c10] ∧
            digitsToNat [c1, c2] ≤ daysInMonth (digitsToNat [c4, c5]) (digitsToNat [c7, c8, c9, c10])
        · exact ⟨hs, _, rfl, hr.2.2.1, hr.2.2.2.1, hr.1, hr.2.2.2.2.2, hr.2.2.2.2.1⟩
        · rw [if_neg hr] at hiss
          simp at hiss
      · rintro ⟨-, f, hf, hcal⟩
        cases hf
        rw [if_pos ⟨hcal.2.2.1, le_trans hcal.2.2.2.1 hd31, hcal.1, hcal.2.1,
          hcal.2.2.2.2, hcal.2.2.2.1⟩]
        rfl
  · rw [if_neg hs]
    simp only [Option.isSome_none, Bool.false_eq_true, false_iff]
    rintro ⟨h, -⟩
    exact hs h

-- ---------------- C8: sheet selection ----------------

/-- `select_sheets` as the spec names it: workbook order, kept iff the
name parses to a date inside the inclusive range (this is the comprehension
of `scan_workbook`). -/
theorem sheet_selection_spec (wb : Workbook) (date_from date_to : PDate)
    (max_rows max_cols : Nat) :
    (scanSheetList wb date_from date_to).Sublist (sheetnames wb) ∧
    (∀ n, n ∈ scanSheetList wb date_from date_to ↔
      n ∈ sheetnames wb ∧ ∃ d, is_date_sheet n = some d ∧
        dateLE date_from d = true ∧ dateLE d date_to = true) ∧
    scan_workbook wb date_from date_to max_rows max_cols =
      (scanSheetList wb date_from date_to).foldl
        (fun maps n => scanSheet (sheetByName wb n) max_rows max_cols maps) ([], []) := by
  refine ⟨List.filter_sublist _, ?_, rfl⟩
  intro n
  unfold scanSheetList
  rw [List.mem_filter]
  constructor
  · rintro ⟨hmem, hf⟩
    refine ⟨hmem, ?_⟩
    cases hid : is_date_sheet n with
    | none => rw [hid] at hf; cases hf
    | some d =>
      rw [hid] at hf
      simp only [Bool.and_eq_true] at hf
      exact ⟨d, rfl, hf.1, hf.2⟩
  · rintro ⟨hmem, d, hid, h1, h2⟩
    refine ⟨hmem, ?_⟩
    rw [hid]
    simp [h1, h2]

-- ---------------- C5: sign of the accumulated totals ----------------

/-- Every entry of a totals map has non-negative sums. -/
def mapNonneg (m : TotalsMap) : Prop :=
  ∀ e ∈ m, 0 ≤ e.2.1 ∧ 0 ≤ e.2.2

theorem addPair_nonneg {m : TotalsMap} (hm : mapNonneg m) {k : String} {b r : ℚ}
    (hb : 0 ≤ b) (hr : 0 ≤ r) : mapNonneg (addPair m k b r) := by
  induction m with
  | nil =>
    intro e he
    simp only [addPair, List.mem_singleton] at he
    subst he
    exact ⟨hb, hr⟩
  | cons hd tl ih =>
    obtain ⟨k', x, y⟩ := hd
    intro e he
    simp only [addPair] at he
    by_cases hk : k' = k
    · rw [if_pos hk] at he
      rcases List.mem_cons.mp he with rfl | he'
      · have h0 := hm (k', x, y) (List.mem_cons_self _ _)
        exact ⟨add_nonneg h0.1 hb, add_nonneg h0.2 hr⟩
      · exact hm e (List.mem_cons_of_mem _ he')
    · rw [if_neg hk] at he
      rcases List.mem_cons.mp he with rfl | he'
      · exact hm _ (List.mem_cons_self _ _)
      · exact ih (fun e' he' => hm e' (List.mem_cons_of_mem _ he')) e he'

/-- All cell values of a sheet convert to non-negative numbers. -/
def cellsNonneg (ws : Sheet) : Prop :=
  ∀ e ∈ ws.cells, 0 ≤ to_number (some e.2)

instance : DecidablePred cellsNonneg := fun ws => by
  unfold cellsNonneg; infer_instance

theorem cellValue_nonneg {ws : Sheet} (h : cellsNonneg ws) (r c : Nat) :
    0 ≤ to_number (cellValue ws r c) := by
  unfold cellValue
  cases hf : ws.cells.find? (fun e => decide (e.1 = (r, c))) with
  | none => exact le_refl 0
  | some e => exact h e (List.mem_of_find?_eq_some hf)

theorem read_cell_nonneg {ws : Sheet} (h : cellsNonneg ws) (r c : Nat) :
    0 ≤ to_number (read_cell ws r c) := by
  unfold read_cell
  exact cellValue_nonneg h _ _

theorem foldl_inv {α β : Type} (P : β → Prop) (f : β → α → β) (l : List α) (b : β)
    (hb : P b) (hf : ∀ b' a, P b' → P (f b' a)) : P (l.foldl f b) := by
  induction l generalizing b with
  | nil => exact hb
  | cons x t ih => exact ih (f b x) (hf b x hb)

theorem processAnchor_nonneg {ws : Sheet} (h : cellsNonneg ws) (lr lc : Nat)
    (a : Nat × Nat) {maps : TotalsMap × TotalsMap}
    (hm : mapNonneg maps.1 ∧ mapNonneg maps.2) :
    mapNonneg (processAnchor ws lr lc a maps).1 ∧
    mapNonneg (processAnchor ws lr lc a maps).2 := by
  simp only [processAnchor]
  by_cases hnil : detect_store_columns ws (a.1 - 1) a.1 (a.2 + 2) lc = []
  · rw [hnil]; simpa using hm
  · rw [if_neg hnil]
    by_cases hde : data_row_end ws a.2 (a.1 + 1) lr < ((a.1 + 1 : Nat) : Int)
    · rw [if_pos hde]; exact hm
    · rw [if_neg hde]
      refine foldl_inv (fun ms => mapNonneg ms.1 ∧ mapNonneg ms.2) _ _ maps hm ?_
      intro ms r hms
      refine foldl_inv (fun ms => mapNonneg ms.1 ∧ mapNonneg ms.2) _ _ ms hms ?_
      intro ms' st hms'
      constructor
      · exact addPair_nonneg hms'.1 (read_cell_nonneg h _ _) (read_cell_nonneg h _ _)
      · by_cases hdrv : norm_text (read_cell ws (a.1 - 1) a.2) ≠ ""
        · simp only [if_pos hdrv]
          exact addPair_nonneg hms'.2 (read_cell_nonneg h _ _) (read_cell_nonneg h _ _)
        · simp only [if_neg hdrv]
          exact hms'.2

theorem scanSheet_nonneg {ws : Sheet} (h : cellsNonneg ws) (max_rows max_cols : Nat)
    {maps : TotalsMap × TotalsMap} (hm : mapNonneg maps.1 ∧ mapNonneg maps.2) :
    mapNonneg (scanSheet ws max_rows max_cols maps).1 ∧
    mapNonneg (scanSheet ws max_rows max_cols maps).2 := by
  unfold scanSheet
  exact foldl_inv (fun ms => mapNonneg ms.1 ∧ mapNonneg ms.2) _ _ maps hm
    (fun ms a hms => processAnchor_nonneg h _ _ a hms)

theorem sheetByName_cases (wb : Workbook) (n : String) :
    sheetByName wb n = ⟨[], [], 0, 0⟩ ∨ ∃ p ∈ wb.sheets, sheetByName wb n = p.2 := by
  unfold sheetByName
  cases hf : wb.sheets.find? (fun e => decide (e.1 = n)) with
  | none => left; rfl
  | some e => right; exact ⟨e, List.mem_of_find?_eq_some hf, rfl⟩

/-- C5 (amended): for a workbook all of whose stored cell values convert
to non-negative numbers, every entity of both final totals maps has
non-negative brought and returned sums. -/
theorem scan_totals_nonneg (wb : Workbook) (date_from date_to : PDate)
    (max_rows max_cols : Nat)
    (h : ∀ p ∈ wb.sheets, cellsNonneg p.2) :
    mapNonneg (scan_workbook wb date_from date_to max_rows max_cols).1 ∧
    mapNonneg (scan_workbook wb date_from date_to max_rows max_cols).2 := by
  unfold scan_workbook
  refine foldl_inv (fun ms => mapNonneg ms.1 ∧ mapNonneg ms.2) _ _ ([], [])
    ⟨fun e he => absurd he (List.not_mem_nil e), fun e he => absurd he (List.not_mem_nil e)⟩ ?_
  intro ms n hms
  have hws : cellsNonneg (sheetByName wb n) := by
    rcases sheetByName_cases wb n with he | ⟨p, hp, he⟩
    · rw [he]; intro e he'; cases he'
    · rw [he]; exact h p hp
  exact scanSheet_nonneg hws max_rows max_cols hms

/-- C5 counterexample: `wbNeg` has a single data cell `-5`, and the scan
leaves the stores map with entity "Store A" at brought = −5 < 0. -/
theorem scan_totals_negative :
    ("Store A", (-5 : ℚ), (0 : ℚ)) ∈ (scan_workbook wbNeg ⟨2024, 1, 1⟩ ⟨2024, 1, 1⟩ 320 25).1 ∧
    ((-5 : ℚ) < 0) := by decide

/-- C5 witness: on the all-non-negative workbook `wbEx` the accumulated
entry ("Store A", 8, 3) indeed has non-negative sums. -/
theorem scan_totals_nonneg_witness :
    (("Store A", (8 : ℚ), (3 : ℚ)) ∈ (scan_workbook wbEx ⟨2024, 1, 1⟩ ⟨2024, 1, 31⟩ 320 25).1) ∧
    ((0 : ℚ) ≤ 8 ∧ (0 : ℚ) ≤ 3) :=
  ⟨by decide,
    (scan_totals_nonneg wbEx ⟨2024, 1, 1⟩ ⟨2024, 1, 31⟩ 320 25 (by decide)).1
      ("Store A", 8, 3) (by decide)⟩

-- ---------------- C4: all reads stay inside the scan window ----------------

/-- `p` lies inside the 1-based window of `R` rows and `C` columns. -/
def inWindow (R C : Nat) (p : Nat × Nat) : Prop :=
  1 ≤ p.1 ∧ p.1 ≤ R ∧ 1 ≤ p.2 ∧ p.2 ≤ C

instance (R C : Nat) (p : Nat × Nat) : Decidable (inWindow R C p) := by
  unfold inWindow; infer_instance

theorem inWindow_mono {R C R' C' : Nat} (hR : R ≤ R') (hC : C ≤ C') {p : Nat × Nat}
    (h : inWindow R C p) : inWindow R' C' p := by
  unfold inWindow at *
  omega

theorem mergeResolve_bounds (l : List MRange) (hwf : ∀ mr ∈ l, wfRange mr)
    (r c : Nat) (h1 : 1 ≤ r) (h3 : 1 ≤ c) :
    1 ≤ (mergeResolve l r c).1 ∧ (mergeResolve l r c).1 ≤ r ∧
      1 ≤ (mergeResolve l r c).2 ∧ (mergeResolve l r c).2 ≤ c := by
  induction l with
  | nil => exact ⟨h1, le_refl _, h3, le_refl _⟩
  | cons mr rest ih =>
    by_cases hin : mr.min_row ≤ r ∧ r ≤ mr.max_row ∧ mr.min_col ≤ c ∧ c ≤ mr.max_col
    · have hw := hwf mr (List.mem_cons_self _ _)
      unfold wfRange at hw
      simp only [mergeResolve, if_pos hin]
      exact ⟨hw.1, hin.1, hw.2.2.1, hin.2.2.1⟩
    · simp only [mergeResolve, if_neg hin]
      exact ih (fun mr' hmr' => hwf mr' (List.mem_cons_of_mem _ hmr'))

theorem readCellReads_window {ws : Sheet} {R C : Nat} (hwf : wfSheet ws) {r c : Nat}
    (h1 : 1 ≤ r) (h2 : r ≤ R) (h3 : 1 ≤ c) (h4 : c ≤ C) :
    ∀ p ∈ readCellReads ws r c, inWindow R C p := by
  intro p hp
  rcases List.mem_cons.mp hp with rfl | hp'
  · exact ⟨h1, h2, h3, h4⟩
  · rcases List.mem_singleton.mp hp' with rfl
    have hb := mergeResolve_bounds ws.merges hwf.1 r c h1 h3
    exact ⟨hb.1, le_trans hb.2.1 h2, hb.2.2.1, le_trans hb.2.2.2 h4⟩

theorem findAnchorsReads_window {ws : Sheet} {lr lc : Nat} (hwf : wfSheet ws) :
    ∀ p ∈ findAnchorsReads ws lr lc, inWindow lr lc p := by
  intro p hp
  unfold findAnchorsReads at hp
  simp only [List.mem_flatMap, List.mem_range'_1] at hp
  obtain ⟨r, hr, c, hc, hp'⟩ := hp
  exact readCellReads_window hwf (by omega) (by omega) (by omega) (by omega) p hp'

theorem detectReadsAux_window {ws : Sheet} {R C hdr sub : Nat} (hwf : wfSheet ws)
    (hh1 : 1 ≤ hdr) (hh2 : hdr ≤ R) (hs1 : 1 ≤ sub) (hs2 : sub ≤ R) :
    ∀ fuel c lc, 1 ≤ c → lc ≤ C →
      ∀ p ∈ detectReadsAux ws hdr sub fuel c lc, inWindow R C p := by
  intro fuel
  induction fuel with
  | zero => intro c lc _ _ p hp; cases hp
  | succ f ih =>
    intro c lc hc1 hlc p hp
    simp only [detectReadsAux] at hp
    by_cases hc : c < lc
    · rw [if_pos hc] at hp
      rcases List.mem_append.mp hp with hp1 | hp2
      · rcases List.mem_append.mp hp1 with hp3 | hp4
        · exact readCellReads_window hwf hs1 hs2 (by omega) (by omega) p hp3
        · exact readCellReads_window hwf hs1 hs2 (by omega) (by omega) p hp4
      · by_cases hm : norm_text (read_cell ws sub c) = SUB_PKA ∧
            norm_text (read_cell ws sub (c + 1)) = SUB_VAT
        · rw [if_pos hm] at hp2
          rcases List.mem_append.mp hp2 with hp5 | hp6
          · exact readCellReads_window hwf hh1 hh2 (by omega) (by omega) p hp5
          · exact ih (c + 3) lc (by omega) hlc p hp6
        · rw [if_neg hm] at hp2
          exact ih (c + 1) lc (by omega) hlc p hp2
    · rw [if_neg hc] at hp; cases hp

theorem dataRowEndReadsAux_window {ws : Sheet} {R C bc lastRow : Nat} (hwf : wfSheet ws)
    (hb1 : 1 ≤ bc) (hb2 : bc ≤ C) (hlr : lastRow ≤ R) :
    ∀ fuel r blank, 1 ≤ r →
      ∀ p ∈ dataRowEndReadsAux ws bc lastRow fuel r blank, inWindow R C p := by
  intro fuel
  induction fuel with
  | zero => intro r blank _ p hp; cases hp
  | succ f ih =>
    intro r blank hr1 p hp
    simp only [dataRowEndReadsAux] at hp
    by_cases hr : r ≤ lastRow
    · rw [if_pos hr] at hp
      rcases List.mem_append.mp hp with hp1 | hp2
      · exact readCellReads_window hwf hr1 (by omega) hb1 hb2 p hp1
      · by_cases hbl : norm_text (read_cell ws r bc) = ""
        · rw [if_pos hbl] at hp2
          by_cases h2 : blank + 1 ≥ 2
          · rw [if_pos h2] at hp2; cases hp2
          · rw [if_neg h2] at hp2
            exact ih (r + 1) (blank + 1) (by omega) p hp2
        · rw [if_neg hbl] at hp2
          exact ih (r + 1) 0 (by omega) p hp2
    · rw [if_neg hr] at hp; cases hp

theorem dataRowEndAux_le (ws : Sheet) (bc lastRow : Nat) :
    ∀ fuel r blank, dataRowEndAux ws bc lastRow fuel r blank ≤ (lastRow : Int) ∨
      dataRowEndAux ws bc lastRow fuel r blank ≤ (r : Int) - 1 := by
  intro fuel
  induction fuel with
  | zero => intro r blank; right; simp only [dataRowEndAux]; omega
  | succ f ih =>
    intro r blank
    simp only [dataRowEndAux]
    by_cases hr : r ≤ lastRow
    · rw [if_pos hr]
      by_cases hbl : norm_text (read_cell ws r bc) = ""
      · rw [if_pos hbl]
        by_cases h2 : blank + 1 ≥ 2
        · rw [if_pos h2]; left; omega
        · rw [if_neg h2]
          rcases ih (r + 1) (blank + 1) with h | h
          · left; exact h
          · left; omega
      · rw [if_neg hbl]
        rcases ih (r + 1) 0 with h | h
        · left; exact h
        · left; omega
    · rw [if_neg hr]; right; omega

theorem mem_tableRows {s x : Nat} {e : Int} :
    x ∈ tableRows s e ↔ (s ≤ x ∧ (x : Int) ≤ e) := by
  unfold tableRows
  rw [List.mem_range'_1]
  omega

theorem processAnchorReads_window {ws : Sheet} {lr lc : Nat} (hwf : wfSheet ws)
    {a : Nat × Nat} (ha2 : 2 ≤ a.1) (har : a.1 ≤ lr) (hac1 : 1 ≤ a.2) (hac2 : a.2 ≤ lc) :
    ∀ p ∈ processAnchorReads ws lr lc a, inWindow lr lc p := by
  intro p hp
  unfold processAnchorReads at hp
  rcases List.mem_append.mp hp with hp0 | hp1
  · rcases List.mem_append.mp hp0 with hpd | hpdet
    · exact readCellReads_window hwf (by omega) (by omega) hac1 hac2 p hpd
    · exact detectReadsAux_window hwf (by omega) (by omega) (by omega) har
        (lc - (a.2 + 2)) (a.2 + 2) lc (by omega) (le_refl _) p hpdet
  · by_cases hnil : detect_store_columns ws (a.1 - 1) a.1 (a.2 + 2) lc = []
    · rw [if_pos hnil] at hp1; cases hp1
    · rw [if_neg hnil] at hp1
      rcases List.mem_append.mp hp1 with hpe | hpdata
      · exact dataRowEndReadsAux_window hwf hac1 hac2 (le_refl _)
          (lr + 1 - (a.1 + 1)) (a.1 + 1) 0 (by omega) p hpe
      · simp only [List.mem_flatMap] at hpdata
        obtain ⟨r, hr, st, hst, hrd⟩ := hpdata
        have hrb := mem_tableRows.mp hr
        have hde : data_row_end ws a.2 (a.1 + 1) lr ≤ (lr : Int) := by
          rcases dataRowEndAux_le ws a.2 lr (lr + 1 - (a.1 + 1)) (a.1 + 1) 0 with h | h
          · exact h
          · exfalso
            have := hrb.2
            have := hrb.1
            unfold data_row_end at *
            omega
        have hrlr : r ≤ lr := by
          have := hrb.2
          unfold data_row_end at this
          omega
        have hsc := detect_sound ws (a.1 - 1) a.1 (a.2 + 2) lc st hst
        rcases List.mem_append.mp hrd with hrd1 | hrd2
        · exact readCellReads_window hwf (by omega) hrlr (by omega) (by omega) p hrd1
        · rw [hsc.2.2.1] at hrd2
          exact readCellReads_window hwf (by omega) hrlr (by omega) (by omega) p hrd2

/-- C4 (amended): provided the anchor finder returns no anchor in row 1
(an anchor in row 1 would make the header/driver reads target row 0),
every coordinate read while scanning a well-formed sheet — anchor
finding, driver lookup, store-name lookup, column detection, extent
finding and summation, merge resolution included — lies inside rows
1..max_rows and columns 1..max_cols. -/
theorem scan_reads_in_window (ws : Sheet) (max_rows max_cols : Nat)
    (hwf : wfSheet ws)
    (hanch : ∀ a ∈ find_table_anchors ws (sheetLastRow ws max_rows) (sheetLastCol ws max_cols),
      2 ≤ a.1) :
    ∀ p ∈ scanSheetReads ws max_rows max_cols, inWindow max_rows max_cols p := by
  intro p hp
  unfold scanSheetReads at hp
  have hlr : sheetLastRow ws max_rows ≤ max_rows := min_le_right _ _
  have hlc : sheetLastCol ws max_cols ≤ max_cols := min_le_right _ _
  refine inWindow_mono hlr hlc ?_
  rcases List.mem_append.mp hp with hp1 | hp2
  · exact findAnchorsReads_window hwf p hp1
  · simp only [List.mem_flatMap] at hp2
    obtain ⟨a, ha, hp'⟩ := hp2
    obtain ⟨a1, a2⟩ := a
    have hb := mem_find_table_anchors.mp ha
    exact processAnchorReads_window hwf (hanch (a1, a2) ha) hb.2.1 hb.2.2.1 hb.2.2.2.1 p hp'

/-- C4 counterexample: on a sheet whose anchor phrase sits in row 1, the
scan reads coordinate (0, 1) — row 0, outside the 1-based window. -/
theorem scan_reads_row_zero :
    (0, 1) ∈ scanSheetReads wsRow1 1 1 ∧ ¬ (1 ≤ (0 : Nat)) := by decide

/-- C4 witness: on `wsEx` (anchor in row 2) the hypotheses hold and e.g.
the read at (2,1) lies inside the window. -/
theorem scan_reads_in_window_witness :
    wfSheet wsEx ∧
    (∀ a ∈ find_table_anchors wsEx (sheetLastRow wsEx 320) (sheetLastCol wsEx 25), 2 ≤ a.1) ∧
    ((2, 1) ∈ scanSheetReads wsEx 320 25 ∧ inWindow 320 25 (2, 1)) :=
  ⟨by decide, by decide,
    ⟨by decide, scan_reads_in_window wsEx 320 25 (by decide) (by decide) (2, 1) (by decide)⟩⟩

-- ---------------- C6: the number parser ----------------

/-- `m` fully matches `\d+(?:\.\d+)?`. -/
def unsignedTok (m : List Char) : Bool :=
  decide (m.takeWhile (·.isDigit) ≠ []) &&
  (match m.dropWhile (·.isDigit) with
   | [] => true
   | c :: fs => decide (c = '.') && decide (fs ≠ []) && fs.all (·.isDigit))

/-- `m` fully matches `-?\d+(?:\.\d+)?`. -/
def numTok (m : List Char) : Bool :=
  match m with
  | '-' :: t => unsignedTok t
  | _ => unsignedTok m

/-- `m` is the leftmost-longest (regex) occurrence of a number token in
`l`: it occurs, and every occurrence starts no earlier, and no occurrence
at the same start is longer. -/
def leftmostLongest (l m : List Char) : Prop :=
  ∃ pre post, l = pre ++ m ++ post ∧ numTok m = true ∧
    ∀ pre' m' post', l = pre' ++ m' ++ post' → numTok m' = true →
      pre.length ≤ pre'.length ∧ (pre'.length = pre.length → m'.length ≤ m.length)

theorem takeWhile_all {p : Char → Bool} : ∀ (l : List Char), ∀ x ∈ l.takeWhile p, p x = true := by
  intro l
  induction l with
  | nil => intro x hx; cases hx
  | cons a t ih =>
    intro x hx
    rw [List.takeWhile_cons] at hx
    by_cases ha : p a
    · rw [if_pos ha] at hx
      rcases List.mem_cons.mp hx with rfl | hx'
      · exact ha
      · exact ih x hx'
    · rw [if_neg ha] at hx; cases hx

theorem takeWhile_append_all {p : Char → Bool} :
    ∀ {xs : List Char}, (∀ x ∈ xs, p x = true) → ∀ (ys : List Char),
      (xs ++ ys).takeWhile p = xs ++ ys.takeWhile p := by
  intro xs
  induction xs with
  | nil => intro _ ys; rfl
  | cons a t ih =>
    intro h ys
    rw [List.cons_append, List.takeWhile_cons, if_pos (h a (List.mem_cons_self _ _))]
    rw [ih (fun x hx => h x (List.mem_cons_of_mem _ hx)) ys]
    rfl

theorem dropWhile_append_all {p : Char → Bool} :
    ∀ {xs : List Char}, (∀ x ∈ xs, p x = true) → ∀ (ys : List Char),
      (xs ++ ys).dropWhile p = ys.dropWhile p := by
  intro xs
  induction xs with
  | nil => intro _ ys; rfl
  | cons a t ih =>
    intro h ys
    rw [List.cons_append, List.dropWhile_cons, if_pos (h a (List.mem_cons_self _ _))]
    exact ih (fun x hx => h x (List.mem_cons_of_mem _ hx)) ys

theorem unsignedTok_parts {m : List Char} (h : unsignedTok m = true) :
    m.takeWhile (·.isDigit) ≠ [] ∧
      (m.dropWhile (·.isDigit) = [] ∨
        ∃ fs, m.dropWhile (·.isDigit) = '.' :: fs ∧ fs ≠ [] ∧ ∀ x ∈ fs, x.isDigit = true) := by
  unfold unsignedTok at h
  rw [Bool.and_eq_true] at h
  refine ⟨by simpa using h.1, ?_⟩
  have h2 := h.2
  cases hd : m.dropWhile (·.isDigit) with
  | nil => exact Or.inl rfl
  | cons c fs =>
    rw [hd] at h2
    simp only [Bool.and_eq_true, decide_eq_true_eq, List.all_eq_true] at h2
    obtain ⟨⟨rfl, hne⟩, hall⟩ := h2
    exact Or.inr ⟨fs, rfl, hne, hall⟩

theorem unsignedTok_int {ds : List Char} (hds : ds ≠ [])
    (hd : ∀ x ∈ ds, x.isDigit = true) : unsignedTok ds = true := by
  unfold unsignedTok
  have ht : ds.takeWhile (·.isDigit) = ds := by
    have := takeWhile_append_all hd []
    simpa using this
  have hdp : ds.dropWhile (·.isDigit) = [] := by
    have := dropWhile_append_all hd []
    simpa using this
  rw [ht, hdp]
  simp [hds]

theorem unsignedTok_frac {ds fs : List Char} (hds : ds ≠ [])
    (hd : ∀ x ∈ ds, x.isDigit = true) (hne : fs ≠ [])
    (hall : ∀ x ∈ fs, x.isDigit = true) :
    unsignedTok (ds ++ '.' :: fs) = true := by
  unfold unsignedTok
  rw [takeWhile_append_all hd ('.' :: fs), dropWhile_append_all hd ('.' :: fs)]
  have h1 : ('.' :: fs).takeWhile (·.isDigit) = [] := by
    rw [List.takeWhile_cons]; simp
  have h2 : ('.' :: fs).dropWhile (·.isDigit) = '.' :: fs := by
    rw [List.dropWhile_cons]; simp
  rw [h1, h2]
  simp only [List.append_nil, Bool.and_eq_true, decide_eq_true_eq, List.all_eq_true]
  refine ⟨hds, ⟨?_, hne⟩, hall⟩
  simp

theorem tok_decomp {m' : List Char} (htok : unsignedTok m' = true) :
    ∃ ds', (∀ x ∈ ds', x.isDigit = true) ∧ ds' ≠ [] ∧
      (m' = ds' ∨ ∃ fs', fs' ≠ [] ∧ (∀ x ∈ fs', x.isDigit = true) ∧ m' = ds' ++ '.' :: fs') := by
  obtain ⟨hne, hsh⟩ := unsignedTok_parts htok
  refine ⟨m'.takeWhile (·.isDigit), takeWhile_all m', hne, ?_⟩
  rcases hsh with h0 | ⟨fs, hfs, hfne, hfall⟩
  · left
    conv_lhs => rw [← List.takeWhile_append_dropWhile (p := (·.isDigit)) (l := m')]
    rw [h0, List.append_nil]
  · right
    refine ⟨fs, hfne, hfall, ?_⟩
    conv_lhs => rw [← List.takeWhile_append_dropWhile (p := (·.isDigit)) (l := m')]
    rw [hfs]

/-- Any number token occurring at position 0 of `l` is either all digits
(and no longer than `l`'s digit prefix) or exactly `l`'s digit prefix
followed by a dot and a digit run that `l` continues with. -/
theorem tok_at_zero {l m' post' : List Char} (hl : l = m' ++ post')
    (htok : unsignedTok m' = true) :
    m'.length ≤ (l.takeWhile (·.isDigit)).length ∨
      ∃ fs', m' = l.takeWhile (·.isDigit) ++ '.' :: fs' ∧ fs' ≠ [] ∧
        (∀ x ∈ fs', x.isDigit = true) ∧
        l.dropWhile (·.isDigit) = '.' :: (fs' ++ post') := by
  obtain ⟨ds', hd', hdne, hshape⟩ := tok_decomp htok
  rcases hshape with rfl | ⟨fs', hfne, hfall, rfl⟩
  · left
    subst hl
    rw [takeWhile_append_all hd' post']
    simp
  · right
    subst hl
    have hassoc : (ds' ++ '.' :: fs') ++ post' = ds' ++ ('.' :: (fs' ++ post')) := by simp
    have htW : ((ds' ++ '.' :: fs') ++ post').takeWhile (·.isDigit) = ds' := by
      rw [hassoc, takeWhile_append_all hd']
      simp [List.takeWhile_cons]
    have hdW : ((ds' ++ '.' :: fs') ++ post').dropWhile (·.isDigit) = '.' :: (fs' ++ post') := by
      rw [hassoc, dropWhile_append_all hd']
      simp [List.dropWhile_cons]
    rw [htW, hdW]
    exact ⟨fs', rfl, hfne, hfall, rfl⟩

theorem matchUnsigned_spec {l m : List Char} (h : matchUnsigned l = some m) :
    (∃ post, l = m ++ post) ∧ unsignedTok m = true ∧
      ∀ m' post', l = m' ++ post' → unsignedTok m' = true → m'.length ≤ m.length := by
  have hsplit := List.takeWhile_append_dropWhile (p := (·.isDigit)) (l := l)
  have hdall := takeWhile_all (p := (·.isDigit)) l
  simp only [matchUnsigned] at h
  by_cases hds : l.takeWhile (·.isDigit) = []
  · rw [if_pos hds] at h; cases h
  · rw [if_neg hds] at h
    cases hrest : l.dropWhile (·.isDigit) with
    | nil =>
      rw [hrest] at h
      injection h with h
      subst h
      refine ⟨⟨l.dropWhile (·.isDigit), hsplit.symm⟩, unsignedTok_int hds hdall, ?_⟩
      intro m' post' hl htok
      rcases tok_at_zero hl htok with h1 | ⟨fs', _, _, _, hdW⟩
      · exact h1
      · rw [hrest] at hdW; cases hdW
    | cons c r2 =>
      rw [hrest] at h
      dsimp only at h
      by_cases hc : c = '.'
      · subst hc
        rw [if_pos rfl] at h
        by_cases hfs : r2.takeWhile (·.isDigit) = []
        · rw [if_pos hfs] at h
          injection h with h
          subst h
          refine ⟨⟨l.dropWhile (·.isDigit), hsplit.symm⟩, unsignedTok_int hds hdall, ?_⟩
          intro m' post' hl htok
          rcases tok_at_zero hl htok with h1 | ⟨fs', _, hfne, hfall, hdW⟩
          · exact h1
          · exfalso
            rw [hrest] at hdW
            injection hdW with _ heq
            rw [heq, takeWhile_append_all hfall post'] at hfs
            exact hfne (List.append_eq_nil.mp hfs).1
        · rw [if_neg hfs] at h
          injection h with h
          subst h
          have h1 := hsplit.symm
          rw [hrest] at h1
          constructor
          · refine ⟨r2.dropWhile (·.isDigit), ?_⟩
            calc l = l.takeWhile (·.isDigit) ++ '.' :: r2 := h1
              _ = l.takeWhile (·.isDigit) ++
                  '.' :: (r2.takeWhile (·.isDigit) ++ r2.dropWhile (·.isDigit)) := by
                    rw [List.takeWhile_append_dropWhile]
              _ = (l.takeWhile (·.isDigit) ++ '.' :: r2.takeWhile (·.isDigit)) ++
                  r2.dropWhile (·.isDigit) := by simp
          refine ⟨unsignedTok_frac hds hdall hfs (takeWhile_all r2), ?_⟩
          intro m' post' hl htok
          rcases tok_at_zero hl htok with hint | ⟨fs', hm', hfne, hfall, hdW⟩
          · calc m'.length ≤ (l.takeWhile (·.isDigit)).length := hint
              _ ≤ _ := by simp
          · rw [hrest] at hdW
            injection hdW with _ heq
            have hft : r2.takeWhile (·.isDigit) =
                fs' ++ post'.takeWhile (·.isDigit) := by
              rw [heq, takeWhile_append_all hfall post']
            rw [hm', hft]
            simp only [List.length_append, List.length_cons]
            omega
      · rw [if_neg hc] at h
        injection h with h
        subst h
        refine ⟨⟨l.dropWhile (·.isDigit), hsplit.symm⟩, unsignedTok_int hds hdall, ?_⟩
        intro m' post' hl htok
        rcases tok_at_zero hl htok with h1 | ⟨fs', _, _, _, hdW⟩
        · exact h1
        · exfalso
          rw [hrest] at hdW
          injection hdW with hc' _
          exact hc hc'

theorem unsignedTok_head {m : List Char} (h : unsignedTok m = true) :
    ∃ a t, m = a :: t ∧ a.isDigit = true := by
  obtain ⟨hne, -⟩ := unsignedTok_parts h
  cases m with
  | nil => exact absurd rfl hne
  | cons a t =>
    rw [List.takeWhile_cons] at hne
    by_cases ha : a.isDigit
    · exact ⟨a, t, rfl, ha⟩
    · rw [if_neg ha] at hne
      exact absurd rfl hne

theorem matchUnsigned_none {l : List Char} (h : matchUnsigned l = none) :
    ∀ m' post', l = m' ++ post' → unsignedTok m' = false := by
  simp only [matchUnsigned] at h
  by_cases hds : l.takeWhile (·.isDigit) = []
  · intro m' post' hl
    by_contra hT
    rw [Bool.not_eq_false] at hT
    obtain ⟨a, t, rfl, ha⟩ := unsignedTok_head hT
    rw [hl] at hds
    rw [List.cons_append, List.takeWhile_cons, if_pos ha] at hds
    cases hds
  · rw [if_neg hds] at h
    exfalso
    cases hrest : l.dropWhile (·.isDigit) with
    | nil => rw [hrest] at h; cases h
    | cons c r2 =>
      rw [hrest] at h
      dsimp only at h
      by_cases hc : c = '.'
      · subst hc
        rw [if_pos rfl] at h
        by_cases hfs : r2.takeWhile (·.isDigit) = []
        · rw [if_pos hfs] at h; cases h
        · rw [if_neg hfs] at h; cases h
      · rw [if_neg hc] at h; cases h

theorem numTok_cons_ne {b : Char} {t' : List Char} (hb : ¬ b = '-') :
    numTok (b :: t') = unsignedTok (b :: t') := by
  unfold numTok
  split
  · next heq => injection heq with h1 _; exact absurd h1 hb
  · rfl

theorem numTok_of_unsigned {m : List Char} (h : unsignedTok m = true) : numTok m = true := by
  obtain ⟨a, t, rfl, ha⟩ := unsignedTok_head h
  have hne : ¬ a = '-' := by
    intro h'
    subst h'
    cases ha
  rw [numTok_cons_ne hne]
  exact h

theorem matchNum_spec {l m : List Char} (h : matchNum l = some m) :
    (∃ post, l = m ++ post) ∧ numTok m = true ∧
      ∀ m' post', l = m' ++ post' → numTok m' = true → m'.length ≤ m.length := by
  cases l with
  | nil =>
    exfalso
    have : matchNum ([] : List Char) = none := rfl
    rw [this] at h
    cases h
  | cons a t =>
    by_cases ha : a = '-'
    · subst ha
      have hm : matchNum ('-' :: t) = (matchUnsigned t).map (fun m0 => '-' :: m0) := rfl
      rw [hm] at h
      cases hmu : matchUnsigned t with
      | none => rw [hmu] at h; cases h
      | some mu =>
        rw [hmu] at h
        injection h with h
        subst h
        obtain ⟨⟨post, ht⟩, htok, hmax⟩ := matchUnsigned_spec hmu
        refine ⟨⟨post, by rw [ht]; rfl⟩, htok, ?_⟩
        intro m' post' hl htok'
        cases m' with
        | nil => rw [show numTok ([] : List Char) = false from rfl] at htok'; cases htok'
        | cons b t' =>
          obtain ⟨rfl, hba2⟩ : b = '-' ∧ t = t' ++ post' := by
            rw [List.cons_append] at hl
            injection hl with h1 h2
            exact ⟨h1.symm, h2⟩
          have := hmax t' post' hba2 htok'
          simpa using this
    · have hm : matchNum (a :: t) = matchUnsigned (a :: t) := by
        unfold matchNum
        split
        · next heq => injection heq with h1 _; exact absurd h1 ha
        · rfl
      rw [hm] at h
      obtain ⟨⟨post, hpre⟩, htok, hmax⟩ := matchUnsigned_spec h
      refine ⟨⟨post, hpre⟩, numTok_of_unsigned htok, ?_⟩
      intro m' post' hl htok'
      cases m' with
      | nil => rw [show numTok ([] : List Char) = false from rfl] at htok'; cases htok'
      | cons b t' =>
        have hb : b = a := by
          rw [List.cons_append] at hl
          injection hl with h1 _
          exact h1.symm
        subst hb
        rw [numTok_cons_ne ha] at htok'
        exact hmax (b :: t') post' hl htok'

theorem matchNum_none {l : List Char} (h : matchNum l = none) :
    ∀ m' post', l = m' ++ post' → numTok m' = false := by
  intro m' post' hl
  cases m' with
  | nil => rfl
  | cons b t' =>
    cases l with
    | nil => cases hl
    | cons a t =>
      obtain ⟨rfl, hb2⟩ : b = a ∧ t = t' ++ post' := by
        rw [List.cons_append] at hl
        injection hl with h1 h2
        exact ⟨h1.symm, h2⟩
      by_cases ha : b = '-'
      · subst ha
        have hm : matchNum ('-' :: t) = (matchUnsigned t).map (fun m0 => '-' :: m0) := rfl
        rw [hm] at h
        cases hmu : matchUnsigned t with
        | some mu => rw [hmu] at h; cases h
        | none =>
          show unsignedTok t' = false
          exact matchUnsigned_none hmu t' post' hb2
      · have hm : matchNum (b :: t) = matchUnsigned (b :: t) := by
          unfold matchNum
          split
          · next heq => injection heq with h1 _; exact absurd h1 ha
          · rfl
        rw [hm] at h
        rw [numTok_cons_ne ha]
        exact matchUnsigned_none h (b :: t') post' hl

theorem searchNum_spec (l : List Char) :
    (∀ m, searchNum l = some m → leftmostLongest l m) ∧
    (searchNum l = none → ∀ pre m post, l = pre ++ m ++ post → numTok m = false) := by
  induction l with
  | nil =>
    constructor
    · intro m h; cases h
    · intro _ pre m post hl
      have hm : m = [] := by
        have := congrArg List.length hl
        simp at this
        exact List.length_eq_zero.mp (by omega)
      subst hm
      rfl
  | cons c cs ih =>
    constructor
    · intro m h
      unfold searchNum at h
      cases hmn : matchNum (c :: cs) with
      | some m0 =>
        rw [hmn] at h
        injection h with h
        subst h
        obtain ⟨⟨post, hpre⟩, htok, hmax⟩ := matchNum_spec hmn
        refine ⟨[], post, by simpa using hpre, htok, ?_⟩
        intro pre' m' post' hl htok'
        refine ⟨Nat.zero_le _, ?_⟩
        intro hlen
        have hpre' : pre' = [] := List.length_eq_zero.mp (by simpa using hlen)
        subst hpre'
        exact hmax m' post' (by simpa using hl) htok'
      | none =>
        rw [hmn] at h
        obtain ⟨pre, post, hl, htok, hmax⟩ := ih.1 m h
        refine ⟨c :: pre, post, by simp [hl], htok, ?_⟩
        intro pre' m' post' hl' htok'
        cases pre' with
        | nil =>
          exfalso
          have hf := matchNum_none hmn m' post' (by simpa using hl')
          rw [htok'] at hf
          cases hf
        | cons d pre'' =>
          have hd : cs = pre'' ++ m' ++ post' := by
            rw [List.cons_append, List.cons_append] at hl'
            injection hl' with hcd h2
          have h2 := hmax pre'' m' post' hd htok'
          constructor
          · simpa using Nat.succ_le_succ h2.1
          · intro heq
            apply h2.2
            simpa using heq
    · intro h pre m post hl
      unfold searchNum at h
      cases hmn : matchNum (c :: cs) with
      | some m0 => rw [hmn] at h; cases h
      | none =>
        rw [hmn] at h
        cases pre with
        | nil => exact matchNum_none hmn m post (by simpa using hl)
        | cons d pre'' =>
          have hd : cs = pre'' ++ m ++ post := by
            rw [List.cons_append, List.cons_append] at hl
            injection hl with hcd h2
          exact ih.2 h pre'' m post hd

/-- C6: `to_number` returns 0 for an absent value, passes numeric values
through, and on text parses the leftmost-longest `-?\d+(?:\.\d+)?`
substring of the stripped, comma-to-period form — or returns 0 when no
such substring exists.  It is a total function (never raises). -/
theorem to_number_spec :
    to_number none = 0 ∧
    (∀ q, to_number (some (.num q)) = q) ∧
    to_number (some (.str "1,5")) = 3 / 2 ∧
    to_number (some (.str "abc")) = 0 ∧
    to_number (some (.num 7)) = 7 ∧
    (∀ s : String,
      match searchNum (stringPrep s) with
      | some m => to_number (some (.str s)) = parseTok m ∧ leftmostLongest (stringPrep s) m
      | none => to_number (some (.str s)) = 0 ∧
          ∀ pre m post, stringPrep s = pre ++ m ++ post → numTok m = false) := by
  refine ⟨rfl, fun q => rfl, by decide, by decide, rfl, ?_⟩
  intro s
  cases hsn : searchNum (stringPrep s) with
  | some m =>
    constructor
    · show to_number (some (.str s)) = parseTok m
      simp only [to_number]
      rw [hsn]
    · exact (searchNum_spec (stringPrep s)).1 m hsn
  | none =>
    constructor
    · show to_number (some (.str s)) = 0
      simp only [to_number]
      rw [hsn]
    · exact (searchNum_spec (stringPrep s)).2 hsn

/-- C6 witness: on "1,5" the parser returns the leftmost-longest token
"1.5" of the prepared string, parsed as a float. -/
theorem to_number_spec_witness :
    to_number (some (.str "1,5")) = parseTok ['1', '.', '5'] ∧
      leftmostLongest (stringPrep "1,5") ['1', '.', '5'] :=
  to_number_spec.2.2.2.2.2 "1,5"

end Bread
